import Mathlib

/-!
Shallow embedding of `stable_vector<T, ChunkSize>` (src/stable_vector.h).

A `stable_vector` stores its elements in a `std::vector` of independently
heap-allocated chunks (`boost::container::static_vector<T, ChunkSize>`).
We model the observable state as the list of chunks, each chunk being the
list of elements it currently holds (a `static_vector` of capacity `N`
holds between 0 and `N` elements contiguously).

`size_type` is `std::size_t` (64-bit unsigned) and `difference_type` is
`std::ptrdiff_t` (64-bit signed).  Values are modelled as `Nat`; the one
place where unsigned wrap-around and the unsigned-to-signed conversion
are behaviourally relevant is modelled explicitly:
`reserve` computes `difference_type i = new_capacity - initial_capacity`
(an unsigned subtraction converted to a signed 64-bit value), and the
iterator family computes `m_index - it.m_index` the same way.
-/

namespace StableVectorModel

/-- Number of values of `std::size_t` (64-bit): 2^64. -/
def W : Nat := 2 ^ 64

/-- Numbers below `HALF` are non-negative as `std::ptrdiff_t`: 2^63. -/
def HALF : Nat := 2 ^ 63

/-- Conversion of a `std::size_t` value (a natural below `W`) to
`std::ptrdiff_t`: two's-complement reinterpretation. -/
def toSigned (x : Nat) : Int :=
  if x < HALF then (x : Int) else (x : Int) - (W : Int)

/-- Unsigned 64-bit subtraction `a - b` on `std::size_t` (wraps modulo `W`).
`a` is assumed reduced below `W`; `b` is reduced explicitly. -/
def usub (a b : Nat) : Nat := (a + (W - b % W)) % W

/-- The state of a `stable_vector<T, N>`: the chunk directory `m_chunks`,
each chunk listed with the elements it holds in order. -/
structure SV (α : Type) (N : Nat) where
  chunks : List (List α)
deriving DecidableEq, Repr

variable {α : Type} {N : Nat}

/-- The default-constructed container: no chunks. -/
def SV.mkEmpty (α : Type) (N : Nat) : SV α N := ⟨[]⟩

/-- `size()`: `std::accumulate` of the chunk sizes over `m_chunks`
(src/stable_vector.h:230-237). -/
def SV.size (c : SV α N) : Nat :=
  c.chunks.foldl (fun s ch => s + ch.length) 0

/-- `capacity()`: `m_chunks.size() * ChunkSize` (src/stable_vector.h:123). -/
def SV.capacity (c : SV α N) : Nat := c.chunks.length * N

/-- `empty()`: `m_chunks.empty()` (src/stable_vector.h:124). -/
def SV.emptyQ (c : SV α N) : Bool := c.chunks.isEmpty

/-- `push_back` / `emplace_back` (src/stable_vector.h:266-283): both call
`current_chunk()` (src/stable_vector.h:245-254), which appends a fresh
chunk when the directory is empty or the last chunk is full
(`size() == ChunkSize`), and then returns `*m_chunks.back()`; the element
is constructed at the end of that chunk. -/
def SV.push (c : SV α N) (x : α) : SV α N :=
  match c.chunks.getLast? with
  | none => ⟨c.chunks ++ [[x]]⟩
  | some ch =>
    if ch.length = N then ⟨c.chunks ++ [[x]]⟩
    else ⟨c.chunks.dropLast ++ [ch ++ [x]]⟩

/-- `operator[](i)` (src/stable_vector.h:285-297): unchecked access
`(*m_chunks[i / ChunkSize])[i % ChunkSize]`.  Out-of-bounds chunk or
offset access is undefined behaviour in C++; the model returns `none`
there.  The const overload delegates to this via `const_cast`. -/
def SV.get? (c : SV α N) (i : Nat) : Option α :=
  (c.chunks[i / N]?).bind fun ch => ch[i % N]?

/-- `at(i)` (src/stable_vector.h:299-309): throws `std::out_of_range` when
`i >= size()`, otherwise returns `operator[](i)`.  The outer `none` models
the thrown exception; the payload is the (possibly undefined) result of
the unchecked access. -/
def SV.at? (c : SV α N) (i : Nat) : Option (Option α) :=
  if c.size ≤ i then none else some (c.get? i)

/-- The const overload of `at` (src/stable_vector.h:311-316): delegates to
the non-const overload through `const_cast`. -/
def SV.atConst? (c : SV α N) (i : Nat) : Option (Option α) := c.at? i

/-- Number of loop iterations of `reserve(new_capacity)`
(src/stable_vector.h:256-264): starting from
`difference_type i = new_capacity - initial_capacity` (unsigned 64-bit
subtraction reinterpreted as signed), one chunk is appended per iteration
while `i > 0`, decrementing by `ChunkSize`. -/
def reserveChunks (N : Nat) (newCap initCap : Nat) : Nat :=
  let i0 := toSigned (usub newCap initCap)
  if 0 < i0 then (i0.toNat + N - 1) / N else 0

/-- `reserve(new_capacity)` (src/stable_vector.h:256-264): appends
`reserveChunks` fresh empty chunks via `add_chunk()`. -/
def SV.reserve (c : SV α N) (t : Nat) : SV α N :=
  ⟨c.chunks ++ List.replicate (reserveChunks N t c.capacity) []⟩

/-- `front()` (mutable overload, src/stable_vector.h:134):
`m_chunks.front()->front()`. -/
def SV.frontMut (c : SV α N) : Option α :=
  c.chunks.head?.bind fun ch => ch.head?

/-- `back()` (mutable overload, src/stable_vector.h:137):
`m_chunks.back()->back()`. -/
def SV.backMut (c : SV α N) : Option α :=
  c.chunks.getLast?.bind fun ch => ch.getLast?

/-- `front() const` (src/stable_vector.h:135) is
`const_reference front() const { return front(); }` — the unqualified call
inside the const member resolves to the same const overload (there is no
`const_cast` as in `at`), so every call immediately recurses.  We model
the recursion with fuel: `fuel` remaining nested calls; running out of
fuel (`none`) is the only possible outcome of each finite prefix of the
infinite recursion — no value is ever produced. -/
def SV.frontConstFuel (c : SV α N) : Nat → Option α
  | 0 => none
  | fuel + 1 => c.frontConstFuel fuel

/-- `back() const` (src/stable_vector.h:138): same self-recursion as
`front() const`. -/
def SV.backConstFuel (c : SV α N) : Nat → Option α
  | 0 => none
  | fuel + 1 => c.backConstFuel fuel

/-- Building a container by appending the elements of `v` in order onto
the default-constructed container.  All element-providing constructors
reduce to this: the fill constructors (src/stable_vector.h:171-187) loop
`push_back(value)` / `emplace_back()`, the range constructor
(src/stable_vector.h:189-197) loops `push_back(*first)`, and the
initializer-list constructor (src/stable_vector.h:214-221) loops
`push_back(t)`. -/
def fromList (N : Nat) (v : List α) : SV α N :=
  v.foldl (fun c x => c.push x) (SV.mkEmpty α N)

/-- The move constructor (src/stable_vector.h:208-212): member-initializes
`m_chunks(std::move(other.m_chunks))`; moving from a `std::vector` hands
the buffer over and leaves the source vector empty.  Returns
(new container, moved-from container). -/
def moveCtor (c : SV α N) : SV α N × SV α N := (⟨c.chunks⟩, ⟨[]⟩)

/-- `operator==` (src/stable_vector.h:126): sizes equal and corresponding
elements equal in index order (`std::equal` over the iterators, which
dereference through `operator[]`). -/
def SV.eqv (c d : SV α N) : Prop :=
  c.size = d.size ∧ ∀ i < c.size, c.get? i = d.get? i

/-- The directory invariant: every chunk except possibly the last has size
exactly `N`, and the last chunk (when present) has size at most `N`. -/
def SV.dirInv (c : SV α N) : Bool :=
  c.chunks.dropLast.all (fun ch => ch.length == N) &&
    (match c.chunks.getLast? with
     | none => true
     | some ch => decide (ch.length ≤ N))

/-- The reading of the whole container through its iterators:
`*it` for `it` from `begin()` (index 0) to `end()` (index `size()`),
each dereference resolving through `operator[]`
(src/stable_vector.h:73,87). -/
def SV.elems (c : SV α N) : List α :=
  (List.range c.size).filterMap fun i => c.get? i

/-- Container values reachable by the public operations.  Copy
construction and copy assignment reproduce an already-reachable value,
move construction/assignment leaves the source at the default-constructed
value, and `swap` exchanges two reachable values, so closing under
construction, `push_back`/`emplace_back` and `reserve` covers every
reachable value. -/
inductive Reachable : SV α N → Prop
  | empty : Reachable (SV.mkEmpty α N)
  | push (c : SV α N) (x : α) : Reachable c → Reachable (c.push x)
  | reserve (c : SV α N) (t : Nat) : Reachable c → Reachable (c.reserve t)

/-- Container values reachable without ever calling `reserve`. -/
inductive ReachableNR : SV α N → Prop
  | empty : ReachableNR (SV.mkEmpty α N)
  | push (c : SV α N) (x : α) : ReachableNR c → ReachableNR (c.push x)

/-! ### The chunk layout of append-only containers

`chunkify N v` splits `v` into consecutive chunks of `N` elements, the
last chunk holding the `1 ≤ r ≤ N` remaining ones.  We prove below that a
container built by appending `v` element by element has exactly this
chunk directory. -/

/-- `v` split into consecutive chunks of `N` elements (for `0 < N`). -/
def chunkify (N : Nat) : List α → List (List α)
  | [] => []
  | x :: xs => (x :: xs).take N :: chunkify N (xs.drop (N - 1))
termination_by v => v.length
decreasing_by
  simp only [List.length_drop, List.length_cons]
  omega

theorem chunkify_nil : chunkify N ([] : List α) = [] := by
  simp [chunkify]

/-- Unfolding of `chunkify` on a non-empty list, for positive `N`. -/
theorem chunkify_cons (hN : 0 < N) (v : List α) (hv : v ≠ []) :
    chunkify N v = v.take N :: chunkify N (v.drop N) := by
  match v with
  | [] => exact absurd rfl hv
  | x :: xs =>
    obtain ⟨m, rfl⟩ : ∃ m, N = m + 1 := ⟨N - 1, by omega⟩
    simp [chunkify, List.drop_succ_cons]

theorem chunkify_ne_nil (v : List α) (hv : v ≠ []) :
    chunkify N v ≠ [] := by
  match v with
  | [] => exact absurd rfl hv
  | x :: xs => simp [chunkify]

theorem push_empty (x : α) : SV.push (⟨[]⟩ : SV α N) x = ⟨[[x]]⟩ := by
  simp [SV.push]

/-- `push` on a container whose chunk directory ends in `ch`. -/
theorem push_last (cs : List (List α)) (ch : List α) (x : α) :
    (SV.push ⟨cs ++ [ch]⟩ x : SV α N) =
      if ch.length = N then ⟨(cs ++ [ch]) ++ [[x]]⟩ else ⟨cs ++ [ch ++ [x]]⟩ := by
  simp only [SV.push, List.getLast?_concat, List.dropLast_concat]

/-- `push` leaves every chunk before the last untouched. -/
theorem push_cons (t : List α) (rest : List (List α)) (hr : rest ≠ []) (x : α) :
    (SV.push ⟨t :: rest⟩ x : SV α N) = ⟨t :: (SV.push (⟨rest⟩ : SV α N) x).chunks⟩ := by
  rcases List.eq_nil_or_concat rest with h | ⟨rs, ch, hrest⟩
  · exact absurd h hr
  · rw [List.concat_eq_append] at hrest
    subst hrest
    have h1 : t :: (rs ++ [ch]) = (t :: rs) ++ [ch] := by simp
    rw [h1, push_last, push_last]
    by_cases hch : ch.length = N <;> simp [hch]

/-- A container built by appending the elements of `v` one by one has
chunk directory `chunkify N v`. -/
theorem push_chunkify (hN : 0 < N) (v : List α) (x : α) :
    (SV.push ⟨chunkify N v⟩ x : SV α N) = ⟨chunkify N (v ++ [x])⟩ := by
  have hxN : (0 : Nat) < N := hN
  rcases Nat.lt_or_ge v.length N with hlt | hge
  · match v with
    | [] =>
      rw [chunkify_nil, push_empty, List.nil_append, chunkify_cons hN [x] (by simp),
          List.take_of_length_le (by simp; omega), List.drop_of_length_le (by simp; omega),
          chunkify_nil]
    | y :: ys =>
      rw [chunkify_cons hN (y :: ys) (by simp),
          List.take_of_length_le (le_of_lt hlt), List.drop_of_length_le (le_of_lt hlt),
          chunkify_nil,
          chunkify_cons hN ((y :: ys) ++ [x]) (by simp),
          List.take_of_length_le (by simp at hlt ⊢; omega),
          List.drop_of_length_le (by simp at hlt ⊢; omega), chunkify_nil]
      have h0 : ([(y :: ys)] : List (List α)) = [] ++ [(y :: ys)] := by simp
      have hne : (y :: ys).length ≠ N := by
        simp at hlt ⊢; omega
      rw [h0, push_last, if_neg hne]
      simp
  · have hv : v ≠ [] := by
      intro h; subst h; simp at hge; omega
    rw [chunkify_cons hN v hv]
    rcases Nat.eq_or_lt_of_le hge with heq | hgt
    · -- v.length = N: the single full chunk spawns a new chunk holding x
      rw [List.drop_of_length_le (by omega), chunkify_nil,
          List.take_of_length_le (by omega)]
      have h0 : ([v] : List (List α)) = [] ++ [v] := by simp
      rw [h0, push_last, if_pos heq.symm]
      rw [chunkify_cons hN (v ++ [x]) (by simp),
          List.take_append_of_le_length hge, List.take_of_length_le (by omega),
          List.drop_append_of_le_length hge, List.drop_of_length_le (by omega)]
      simp only [List.nil_append]
      rw [chunkify_cons hN [x] (by simp),
          List.take_of_length_le (by simp; omega), List.drop_of_length_le (by simp; omega),
          chunkify_nil]
      simp
    · -- N < v.length: push happens inside the tail of the directory
      have hdrop : v.drop N ≠ [] := by
        intro h
        have := congrArg List.length h
        simp at this
        omega
      rw [push_cons _ _ (chunkify_ne_nil _ hdrop) x,
          push_chunkify hN (v.drop N) x,
          chunkify_cons hN (v ++ [x]) (by simp),
          List.take_append_of_le_length hge,
          List.drop_append_of_le_length hge]
termination_by v.length
decreasing_by simp only [List.length_drop]; omega

/-- All constructors that append `v` in order produce exactly the
`chunkify` directory. -/
theorem fromList_eq_chunkify (hN : 0 < N) (v : List α) :
    fromList N v = (⟨chunkify N v⟩ : SV α N) := by
  induction v using List.reverseRecOn with
  | nil => simp [fromList, SV.mkEmpty, chunkify_nil]
  | append_singleton v x ih =>
    rw [fromList, List.foldl_concat, ← fromList, ih, push_chunkify hN]

/-! ### Size, capacity, indexing and invariant of the chunk layout -/

theorem foldl_size (cs : List (List α)) (a : Nat) :
    cs.foldl (fun s ch => s + ch.length) a = a + (cs.map List.length).sum := by
  induction cs generalizing a with
  | nil => simp
  | cons ch cs ih => simp [ih, Nat.add_assoc]

/-- `size()` is the sum of the chunk sizes. -/
theorem size_mk (cs : List (List α)) :
    (⟨cs⟩ : SV α N).size = (cs.map List.length).sum := by
  simp [SV.size, foldl_size]

/-- The chunks of `chunkify N v` hold `v.length` elements in total. -/
theorem sum_chunkify (hN : 0 < N) (v : List α) :
    ((chunkify N v).map List.length).sum = v.length := by
  by_cases hv : v = []
  · subst hv; simp [chunkify_nil]
  · rw [chunkify_cons hN v hv]
    rcases Nat.lt_or_ge v.length N with hlt | hge
    · rw [List.take_of_length_le (le_of_lt hlt), List.drop_of_length_le (le_of_lt hlt),
          chunkify_nil]
      simp
    · have := sum_chunkify hN (v.drop N)
      simp only [List.map_cons, List.sum_cons, this, List.length_take, List.length_drop]
      omega
termination_by v.length
decreasing_by simp only [List.length_drop]; omega

/-- `chunkify N v` has `ceil(v.length / N)` chunks. -/
theorem length_chunkify (hN : 0 < N) (v : List α) :
    (chunkify N v).length = (v.length + N - 1) / N := by
  by_cases hv : v = []
  · subst hv
    rw [chunkify_nil]
    simp only [List.length_nil]
    exact (Nat.div_eq_of_lt (by omega)).symm
  · rw [chunkify_cons hN v hv]
    have hpos : 0 < v.length := List.length_pos.mpr hv
    rcases Nat.lt_or_ge v.length N with hlt | hge
    · rw [List.drop_of_length_le (le_of_lt hlt), chunkify_nil]
      have : (v.length + N - 1) / N = 1 := by
        rw [Nat.div_eq_sub_div hN (by omega), Nat.div_eq_of_lt (by omega)]
      simp [this]
    · have := length_chunkify hN (v.drop N)
      simp only [List.length_cons, this, List.length_drop]
      have h1 : v.length + N - 1 = (v.length - N + N - 1) + N := by omega
      rw [h1, Nat.add_div_right _ hN]
termination_by v.length
decreasing_by simp only [List.length_drop]; omega

/-- Index `i` of the chunked layout resolves through chunk `i / N`,
offset `i % N`, to element `i` of the original sequence. -/
theorem chunkify_get (hN : 0 < N) (v : List α) (i : Nat) (hi : i < v.length) :
    ((chunkify N v)[i / N]?).bind (fun ch => ch[i % N]?) = v[i]? := by
  have hv : v ≠ [] := by
    intro h; subst h; simp at hi
  rw [chunkify_cons hN v hv]
  rcases Nat.lt_or_ge i N with hlt | hge
  · rw [Nat.div_eq_of_lt hlt, Nat.mod_eq_of_lt hlt]
    simp only [List.getElem?_cons_zero, Option.some_bind]
    rw [List.getElem?_take, if_pos hlt]
  · have hdiv : i / N = (i - N) / N + 1 := Nat.div_eq_sub_div hN hge
    have hmod : i % N = (i - N) % N := Nat.mod_eq_sub_mod hge
    rw [hdiv, hmod, List.getElem?_cons_succ]
    have hlen : i - N < (v.drop N).length := by
      simp only [List.length_drop]; omega
    rw [chunkify_get hN (v.drop N) (i - N) hlen, List.getElem?_drop]
    congr 1
    omega
termination_by v.length
decreasing_by simp only [List.length_drop]; omega

/-- The chunked layout satisfies the directory invariant. -/
theorem chunkify_dirInv (hN : 0 < N) (v : List α) :
    (⟨chunkify N v⟩ : SV α N).dirInv = true := by
  rw [SV.dirInv]
  by_cases hv : v = []
  · subst hv; simp [chunkify_nil]
  · rw [chunkify_cons hN v hv]
    rcases Nat.lt_or_ge v.length N with hlt | hge
    · rw [List.take_of_length_le (le_of_lt hlt), List.drop_of_length_le (le_of_lt hlt),
          chunkify_nil]
      simp; omega
    · have ih := chunkify_dirInv hN (v.drop N)
      rw [SV.dirInv] at ih
      by_cases hrest : v.drop N = []
      · rw [hrest, chunkify_nil]
        have : v.length = N := by
          have := congrArg List.length hrest
          simp at this
          omega
        simp [List.length_take, this]
      · have hcne := chunkify_ne_nil (N := N) (v.drop N) hrest
        rcases List.eq_nil_or_concat (chunkify N (v.drop N)) with h | ⟨rs, ch, hsplit⟩
        · exact absurd h hcne
        · rw [List.concat_eq_append] at hsplit
          have hform : v.take N :: (rs ++ [ch]) = (v.take N :: rs) ++ [ch] := by simp
          rw [hsplit, hform]
          rw [hsplit] at ih
          simp only [Bool.and_eq_true, List.all_eq_true, List.getLast?_concat,
            List.dropLast_concat] at ih ⊢
          obtain ⟨ih1, ih2⟩ := ih
          refine ⟨?_, ih2⟩
          intro y hy
          rcases List.mem_cons.mp hy with rfl | hmem
          · simp [List.length_take]
            omega
          · exact ih1 y hmem
termination_by v.length
decreasing_by simp only [List.length_drop]; omega

theorem fromList_concat (v : List α) (x : α) :
    fromList N (v ++ [x]) = (fromList N v).push x := by
  rw [fromList, List.foldl_concat]
  rfl

theorem size_fromList (hN : 0 < N) (v : List α) :
    (fromList N v : SV α N).size = v.length := by
  rw [fromList_eq_chunkify hN, size_mk, sum_chunkify hN]

theorem capacity_fromList (hN : 0 < N) (v : List α) :
    (fromList N v : SV α N).capacity = ((v.length + N - 1) / N) * N := by
  rw [fromList_eq_chunkify hN, SV.capacity, length_chunkify hN]

theorem get_fromList (hN : 0 < N) (v : List α) (i : Nat) (hi : i < v.length) :
    (fromList N v : SV α N).get? i = v[i]? := by
  rw [fromList_eq_chunkify hN]
  exact chunkify_get hN v i hi

/-- The reserve-free reachable values are exactly the containers built by
appending some sequence. -/
theorem reachableNR_iff_fromList (c : SV α N) :
    ReachableNR c ↔ ∃ v : List α, c = fromList N v := by
  constructor
  · intro h
    induction h with
    | empty => exact ⟨[], rfl⟩
    | push c x _ ih =>
      obtain ⟨v, rfl⟩ := ih
      exact ⟨v ++ [x], (fromList_concat v x).symm⟩
  · rintro ⟨v, rfl⟩
    induction v using List.reverseRecOn with
    | nil => exact ReachableNR.empty
    | append_singleton v x ih =>
      rw [fromList_concat]
      exact ReachableNR.push _ x ih

/-! ### Chunk-size bound over all reachable states -/

/-- Every chunk of the directory holds at most `N` elements (the
`static_vector` capacity bound). -/
def ChunksLE (c : SV α N) : Prop := ∀ ch ∈ c.chunks, ch.length ≤ N

theorem chunksLE_push (hN : 0 < N) (c : SV α N) (x : α) (h : ChunksLE c) :
    ChunksLE (c.push x) := by
  intro ch' hch'
  rw [SV.push] at hch'
  rcases hlast : c.chunks.getLast? with _ | ch
  · rw [hlast] at hch'
    simp only at hch'
    rcases List.mem_append.mp hch' with hm | hm
    · exact h ch' hm
    · simp at hm
      subst hm
      simpa using hN
  · rw [hlast] at hch'
    simp only at hch'
    by_cases hfull : ch.length = N
    · rw [if_pos hfull] at hch'
      rcases List.mem_append.mp hch' with hm | hm
      · exact h ch' hm
      · simp at hm
        subst hm
        simpa using hN
    · rw [if_neg hfull] at hch'
      rcases List.mem_append.mp hch' with hm | hm
      · exact h ch' (List.mem_of_mem_dropLast hm)
      · simp at hm
        subst hm
        have hmem : ch ∈ c.chunks := by
          have := List.dropLast_append_getLast? ch hlast
          rw [← this]
          simp
        have := h ch hmem
        simp only [List.length_append, List.length_cons, List.length_nil]
        omega

theorem chunksLE_reserve (c : SV α N) (t : Nat) (h : ChunksLE c) :
    ChunksLE (c.reserve t) := by
  intro ch' hch'
  rw [SV.reserve] at hch'
  rcases List.mem_append.mp hch' with hm | hm
  · exact h ch' hm
  · rw [List.eq_of_mem_replicate hm]
    exact Nat.zero_le N

theorem reachable_chunksLE (hN : 0 < N) (c : SV α N) (h : Reachable c) :
    ChunksLE c := by
  induction h with
  | empty => intro ch hch; simp [SV.mkEmpty] at hch
  | push c x _ ih => exact chunksLE_push hN c x ih
  | reserve c t _ ih => exact chunksLE_reserve c t ih

theorem sum_le_of_all_le (cs : List (List α)) (h : ∀ ch ∈ cs, ch.length ≤ N) :
    (cs.map List.length).sum ≤ cs.length * N := by
  induction cs with
  | nil => simp
  | cons ch cs ih =>
    simp only [List.map_cons, List.sum_cons, List.length_cons, Nat.succ_mul]
    have h1 := h ch (List.mem_cons_self ch cs)
    have h2 := ih fun ch' hch' => h ch' (List.mem_cons_of_mem ch hch')
    omega

/-- `size() <= capacity()` holds in any state whose chunks respect the
`static_vector` capacity bound. -/
theorem size_le_capacity (c : SV α N) (h : ChunksLE c) :
    c.size ≤ c.capacity := by
  have hs : c.size = (c.chunks.map List.length).sum := size_mk c.chunks
  rw [hs, SV.capacity]
  exact sum_le_of_all_le c.chunks h

/-! ### `reserve` -/

theorem le_ceil_mul (hN : 0 < N) (a : Nat) : a ≤ ((a + N - 1) / N) * N := by
  have h := Nat.div_add_mod (a + N - 1) N
  have h2 : (a + N - 1) % N < N := Nat.mod_lt _ hN
  obtain ⟨q, hq⟩ : ∃ q, (a + N - 1) / N = q := ⟨_, rfl⟩
  obtain ⟨r, hr⟩ : ∃ r, (a + N - 1) % N = r := ⟨_, rfl⟩
  rw [hq, hr] at h
  rw [hr] at h2
  rw [hq, Nat.mul_comm]
  obtain ⟨m, hm⟩ : ∃ m, N * q = m := ⟨_, rfl⟩
  rw [hm] at h ⊢
  omega

theorem HALF_lt_W : HALF < W := by
  rw [HALF, W]
  norm_num

/-- Unsigned subtraction computes the true difference when `b ≤ a < W`. -/
theorem usub_of_le {a b : Nat} (hb : b ≤ a) (ha : a < W) : usub a b = a - b := by
  have hW : 0 < W := by rw [W]; positivity
  have hbW : b % W = b := Nat.mod_eq_of_lt (lt_of_le_of_lt hb ha)
  rw [usub, hbW]
  have h1 : a + (W - b) = W + (a - b) := by omega
  rw [h1, Nat.add_mod_left]
  exact Nat.mod_eq_of_lt (by omega)

theorem toSigned_of_lt {x : Nat} (h : x < HALF) : toSigned x = (x : Int) := by
  rw [toSigned, if_pos h]

/-- The chunk count appended by `reserve` when the target strictly exceeds
the current capacity and no wrap-around occurs. -/
theorem reserveChunks_of_lt {t cap : Nat} (hlt : cap < t)
    (ht : t < HALF) : reserveChunks N t cap = ((t - cap) + N - 1) / N := by
  rw [reserveChunks]
  have husub : usub t cap = t - cap :=
    usub_of_le (le_of_lt hlt) (lt_trans ht HALF_lt_W)
  have hsig : toSigned (usub t cap) = ((t - cap : Nat) : Int) := by
    rw [husub]
    exact toSigned_of_lt (by omega)
  simp only [hsig]
  rw [if_pos (by exact_mod_cast Nat.sub_pos_of_lt hlt)]
  simp

/-- `capacity` after `reserve`. -/
theorem capacity_reserve (c : SV α N) (t : Nat) :
    (c.reserve t).capacity = c.capacity + reserveChunks N t c.capacity * N := by
  rw [SV.reserve, SV.capacity, SV.capacity]
  simp [Nat.add_mul]

/-- `reserve` never removes chunks: capacity does not decrease. -/
theorem capacity_reserve_mono (c : SV α N) (t : Nat) :
    c.capacity ≤ (c.reserve t).capacity := by
  rw [capacity_reserve]
  omega

/-- For targets below `2^63` the loop runs long enough:
`capacity() >= new_capacity` afterwards. -/
theorem capacity_reserve_ge (hN : 0 < N) (c : SV α N) (t : Nat)
    (ht : t < HALF) : t ≤ (c.reserve t).capacity := by
  rcases le_or_lt t c.capacity with hle | hlt
  · exact le_trans hle (capacity_reserve_mono c t)
  · rw [capacity_reserve, reserveChunks_of_lt hlt ht]
    have := le_ceil_mul hN (t - c.capacity)
    omega

/-- `reserve` appends only empty chunks: `size()` is unchanged. -/
theorem size_reserve (c : SV α N) (t : Nat) : (c.reserve t).size = c.size := by
  rw [SV.reserve]
  have h1 := size_mk (N := N) (c.chunks ++ List.replicate (reserveChunks N t c.capacity) [])
  have h2 := size_mk (N := N) (α := α) c.chunks
  rw [h1, h2, List.map_append, List.sum_append, List.map_replicate]
  simp

/-- `reserve` changes no element: every index reads the same value
through `operator[]` afterwards. -/
theorem get_reserve (c : SV α N) (t : Nat) (i : Nat) :
    (c.reserve t).get? i = c.get? i := by
  rw [SV.reserve, SV.get?, SV.get?]
  simp only
  rw [List.getElem?_append]
  split
  · rfl
  · rename_i hge
    rw [List.getElem?_eq_none (le_of_not_lt hge)]
    rw [List.getElem?_replicate]
    split
    · simp
    · simp

/-! ### Reading a well-formed container back through its iterators -/

theorem size_cons (t : List α) (rest : List (List α)) :
    (⟨t :: rest⟩ : SV α N).size = t.length + (⟨rest⟩ : SV α N).size := by
  rw [size_mk, size_mk, List.map_cons, List.sum_cons]

theorem dirInv_cons (t : List α) (rest : List (List α)) (hr : rest ≠ [])
    (h : (⟨t :: rest⟩ : SV α N).dirInv = true) :
    t.length = N ∧ (⟨rest⟩ : SV α N).dirInv = true := by
  rcases List.eq_nil_or_concat rest with h0 | ⟨rs, ch, hsplit⟩
  · exact absurd h0 hr
  · rw [List.concat_eq_append] at hsplit
    subst hsplit
    have hform : t :: (rs ++ [ch]) = (t :: rs) ++ [ch] := by simp
    rw [SV.dirInv] at h
    rw [SV.dirInv]
    simp only [hform, List.dropLast_concat, List.getLast?_concat, Bool.and_eq_true,
      List.all_eq_true, List.all_cons] at h ⊢
    obtain ⟨⟨h1, h2⟩, h3⟩ := h
    refine ⟨by simpa using h1, h2, h3⟩

theorem get_cons_of_lt (t : List α) (rest : List (List α)) (i : Nat)
    (hi : i < N) : (⟨t :: rest⟩ : SV α N).get? i = t[i]? := by
  rw [SV.get?]
  simp only
  rw [Nat.div_eq_of_lt hi, Nat.mod_eq_of_lt hi]
  simp

theorem get_cons_of_ge (hN : 0 < N) (t : List α) (rest : List (List α)) (i : Nat)
    (hi : N ≤ i) :
    (⟨t :: rest⟩ : SV α N).get? i = (⟨rest⟩ : SV α N).get? (i - N) := by
  rw [SV.get?, SV.get?]
  simp only
  rw [Nat.div_eq_sub_div hN hi, Nat.mod_eq_sub_mod hi, List.getElem?_cons_succ]

/-- In a well-formed directory, `operator[]` reads the concatenation of
the chunks. -/
theorem get_eq_flatten_of_dirInv (hN : 0 < N) :
    ∀ (cs : List (List α)), (⟨cs⟩ : SV α N).dirInv = true →
      ∀ i, i < (⟨cs⟩ : SV α N).size → (⟨cs⟩ : SV α N).get? i = cs.flatten[i]?
  | [], _, i, hi => by
      rw [size_mk] at hi
      simp at hi
  | t :: rest, h, i, hi => by
      by_cases hr : rest = []
      · subst hr
        rw [size_cons, size_mk] at hi
        simp at hi
        have hle : t.length ≤ N := by
          rw [SV.dirInv] at h
          simpa using h
        have hiN : i < N := lt_of_lt_of_le hi hle
        rw [get_cons_of_lt t [] i hiN]
        simp
      · obtain ⟨htN, hrest⟩ := dirInv_cons t rest hr h
        rcases Nat.lt_or_ge i N with hlt | hge
        · rw [get_cons_of_lt t rest i hlt, List.flatten_cons, List.getElem?_append,
              if_pos (by omega)]
        · rw [get_cons_of_ge hN t rest i hge,
              get_eq_flatten_of_dirInv hN rest hrest (i - N)
                (by rw [size_cons] at hi; omega),
              List.flatten_cons, List.getElem?_append, if_neg (by omega), htN]

/-- Reading every position of a list through `getElem?` reproduces it. -/
theorem filterMap_getElem?_range (l : List α) :
    (List.range l.length).filterMap (fun i => l[i]?) = l := by
  induction l using List.reverseRecOn with
  | nil => simp
  | append_singleton l a ih =>
    have hlen : (l ++ [a]).length = l.length + 1 := by simp
    rw [hlen, List.range_succ, List.filterMap_append]
    have h1 : (List.range l.length).filterMap (fun i => (l ++ [a])[i]?) = l := by
      rw [List.filterMap_congr (g := fun i => l[i]?) ?_, ih]
      intro x hx
      rw [List.getElem?_append, if_pos (List.mem_range.mp hx)]
    rw [h1]
    simp [List.filterMap, List.getElem?_concat_length]

/-- For a well-formed container, iterating `begin()..end()` reads exactly
the concatenation of the chunks. -/
theorem elems_eq_flatten (hN : 0 < N) (c : SV α N) (h : c.dirInv = true) :
    SV.elems c = c.chunks.flatten := by
  have hsz : c.size = c.chunks.flatten.length := by
    rw [List.length_flatten, ← size_mk]
  rw [SV.elems, hsz]
  rw [List.filterMap_congr (g := fun i => c.chunks.flatten[i]?) ?_]
  · exact filterMap_getElem?_range _
  · intro x hx
    exact get_eq_flatten_of_dirInv hN c.chunks h x
      (by rw [hsz]; exact List.mem_range.mp hx)

/-! ### The iterator family

`iterator_base<Container>` (src/stable_vector.h:40-61) stores the pair
(`m_container`, `m_index`).  We model the container pointer by a numeric
identity `cid` (two iterators compare equal only if their `m_container`
pointers coincide), and `m_index : Nat` with `size_type` arithmetic
modelled explicitly where the source performs it.  Dereference
(src/stable_vector.h:73,87) resolves `(*m_container)[m_index]` through the
container value. -/

/-- `stable_vector::iterator`: a (container pointer, logical index) pair. -/
structure SVIterator where
  cid : Nat
  idx : Nat
deriving DecidableEq, Repr

/-- `stable_vector::const_iterator`: same representation, const view. -/
structure SVConstIterator where
  cid : Nat
  idx : Nat
deriving DecidableEq, Repr

/-- The converting constructor `const_iterator(const iterator&)`
(src/stable_vector.h:82-85): copies `m_container` and `m_index`. -/
def SVIterator.toConst (it : SVIterator) : SVConstIterator := ⟨it.cid, it.idx⟩

/-- `operator+=` (src/stable_vector.h:48): `m_index += i` on `size_type`
(wraps modulo `2^64`); `it + n` is derived from it by
`boost::random_access_iterator_helper`. -/
def SVIterator.advance (it : SVIterator) (n : Nat) : SVIterator :=
  ⟨it.cid, (it.idx + n) % W⟩

/-- `operator*` (src/stable_vector.h:73): `(*m_container)[m_index]`,
resolved against the value of the container the iterator points into. -/
def SVIterator.deref (c : SV α N) (it : SVIterator) : Option α :=
  c.get? it.idx

/-- `operator-` (src/stable_vector.h:53): `m_index - it.m_index`, an
unsigned 64-bit subtraction converted to `difference_type`
(`std::ptrdiff_t`). -/
def SVIterator.sub (a b : SVIterator) : Int := toSigned (usub a.idx b.idx)

/-- `operator<` (src/stable_vector.h:55): `m_index < it.m_index`. -/
def SVIterator.lt (a b : SVIterator) : Bool := decide (a.idx < b.idx)

/-- `operator==` between an `iterator` and a `const_iterator`
(src/stable_vector.h:94, delegating to src/stable_vector.h:56): container
pointers and indices both equal. -/
def iterEqConst (l : SVIterator) (r : SVConstIterator) : Bool :=
  (r.cid == l.cid) && (r.idx == l.idx)

/-- Signed difference of two `size_type` values below `2^63` is exact. -/
theorem toSigned_usub_eq {a b : Nat} (ha : a < HALF) (hb : b < HALF) :
    toSigned (usub a b) = (a : Int) - (b : Int) := by
  have hHW : W = 2 * HALF := by rw [HALF, W, pow_succ]; ring
  rcases le_or_lt b a with hba | hab
  · rw [usub_of_le hba (lt_trans ha HALF_lt_W), toSigned_of_lt (by omega)]
    omega
  · have hbW : b < W := lt_trans hb HALF_lt_W
    rw [usub, Nat.mod_eq_of_lt hbW]
    have hv : a + (W - b) < W := by omega
    rw [Nat.mod_eq_of_lt hv, toSigned, if_neg (by omega)]
    omega

theorem frontConstFuel_eq_none (c : SV α N) : ∀ fuel, c.frontConstFuel fuel = none
  | 0 => rfl
  | fuel + 1 => frontConstFuel_eq_none c fuel

theorem backConstFuel_eq_none (c : SV α N) : ∀ fuel, c.backConstFuel fuel = none
  | 0 => rfl
  | fuel + 1 => backConstFuel_eq_none c fuel

/-! ## The claims -/

/-- **C1, counterexample.**  The claimed directory invariant does not hold
in every reachable state: with `ChunkSize = 2`, calling `reserve(4)` on a
default-constructed container appends two empty chunks, so the first
chunk (size 0) is not the last chunk yet does not have size `N`. -/
theorem C1_counterexample :
    ¬ (∀ c : SV Nat 2, Reachable c → c.dirInv = true) := fun h =>
  absurd (h _ (Reachable.reserve _ 4 Reachable.empty)) (by decide)

/-- **C1, amended.**  In every container state reachable by construction,
`push_back`, `emplace_back`, copy, move, swap and assignment — with
`reserve` excluded — every chunk except possibly the last has size
exactly `N`, the last chunk (if the directory is non-empty) has size in
`[0, N]`, and an empty directory implies an empty container. -/
theorem C1_directory_invariant (hN : 0 < N) (c : SV α N)
    (h : ReachableNR c) :
    c.dirInv = true ∧ (c.chunks.isEmpty = true → c.size = 0) := by
  constructor
  · obtain ⟨v, rfl⟩ := (reachableNR_iff_fromList c).mp h
    rw [fromList_eq_chunkify hN]
    exact chunkify_dirInv hN v
  · intro he
    rw [List.isEmpty_iff] at he
    have : c = ⟨[]⟩ := by cases c; simp_all
    rw [this, size_mk]
    rfl

theorem C1_directory_invariant_witness :
    (((SV.mkEmpty Nat 4).push 1).push 2).dirInv = true ∧
      ((((SV.mkEmpty Nat 4).push 1).push 2).chunks.isEmpty = true →
        (((SV.mkEmpty Nat 4).push 1).push 2).size = 0) :=
  C1_directory_invariant (by decide) _
    (ReachableNR.push _ 2 (ReachableNR.push _ 1 ReachableNR.empty))

/-- **C2.**  Indexing correctness: a container built by appending the
known sequence `v` (which covers `push_back`/`emplace_back` loops and the
fill/range/initializer-list constructors) yields `v[i]` at every index
`i < v.length` through `operator[]`, which resolves index `i` to chunk
`i / N`, offset `i % N`. -/
theorem C2_indexing_correctness (hN : 0 < N) (v : List α) (i : Nat)
    (hi : i < v.length) :
    (fromList N v : SV α N).get? i = some v[i] ∧
      (fromList N v : SV α N).get? i =
        ((fromList N v : SV α N).chunks[i / N]?).bind fun ch => ch[i % N]? := by
  refine ⟨?_, rfl⟩
  rw [get_fromList hN v i hi, List.getElem?_eq_getElem hi]

theorem C2_indexing_correctness_witness :
    (fromList 4 [10, 20, 30, 40, 50] : SV Nat 4).get? 4 = some 50 :=
  (C2_indexing_correctness (by decide) [10, 20, 30, 40, 50] 4 (by decide)).1

/-- **C3.**  Checked access: `at(i)` (and the const overload, which
delegates to it) fails with an out-of-range error exactly when
`i >= size()`, and otherwise returns what `operator[](i)` returns; in
particular `at(size() + k)` fails for every `k ≥ 0` and `at(size() - 1)`
succeeds whenever the container is non-empty. -/
theorem C3_checked_access (c : SV α N) (i k : Nat) :
    (c.at? i = none ↔ c.size ≤ i) ∧
    (i < c.size → c.at? i = some (c.get? i)) ∧
    c.atConst? i = c.at? i ∧
    c.at? (c.size + k) = none ∧
    (0 < c.size → c.at? (c.size - 1) = some (c.get? (c.size - 1))) := by
  refine ⟨⟨?_, ?_⟩, ?_, rfl, ?_, ?_⟩
  · intro h
    by_contra hlt
    rw [SV.at?, if_neg hlt] at h
    exact Option.noConfusion h
  · intro h
    rw [SV.at?, if_pos h]
  · intro h
    rw [SV.at?, if_neg (by omega)]
  · rw [SV.at?, if_pos (by omega)]
  · intro h
    rw [SV.at?, if_neg (by omega)]

theorem C3_checked_access_witness :
    ((fromList 2 [1, 2, 3] : SV Nat 2).at? 1 =
      some ((fromList 2 [1, 2, 3] : SV Nat 2).get? 1)) ∧
    (fromList 2 [1, 2, 3] : SV Nat 2).at? 5 = none := by
  have h := C3_checked_access (fromList 2 [1, 2, 3] : SV Nat 2) 1 2
  exact ⟨h.2.1 (by decide), h.2.2.2.1⟩

/-- **C4.**  Size/capacity invariant: a container built by appends only
satisfies `capacity() = ceil(size() / N) * N`, and `capacity() >= size()`
holds in every reachable state (including those produced by
`reserve`). -/
theorem C4_size_capacity (hN : 0 < N) :
    (∀ c : SV α N, ReachableNR c →
      c.capacity = ((c.size + N - 1) / N) * N) ∧
    (∀ c : SV α N, Reachable c → c.size ≤ c.capacity) := by
  constructor
  · intro c h
    obtain ⟨v, rfl⟩ := (reachableNR_iff_fromList c).mp h
    rw [capacity_fromList hN, size_fromList hN]
  · intro c h
    exact size_le_capacity c (reachable_chunksLE hN c h)

theorem C4_size_capacity_witness :
    ((fromList 4 [1, 2, 3, 4, 5] : SV Nat 4).capacity =
      (((fromList 4 [1, 2, 3, 4, 5] : SV Nat 4).size + 4 - 1) / 4) * 4) ∧
    ((SV.mkEmpty Nat 4).reserve 8).size ≤ ((SV.mkEmpty Nat 4).reserve 8).capacity := by
  have h := C4_size_capacity (α := Nat) (N := 4) (by decide)
  refine ⟨h.1 _ ?_, h.2 _ (Reachable.reserve _ 8 Reachable.empty)⟩
  exact (reachableNR_iff_fromList _).mpr ⟨[1, 2, 3, 4, 5], rfl⟩

/-- **C5, counterexample.**  `reserve` does not establish
`capacity() >= target_capacity` for every target: for
`target = 2^63` on an empty container, the loop counter
`difference_type i = new_capacity - initial_capacity` is initialized to
`-2^63` (two's-complement reinterpretation of `2^63`), so the loop body
never runs and the capacity stays 0. -/
theorem C5_counterexample :
    ¬ (∀ (c : SV Nat 512) (t : Nat), Reachable c →
        t ≤ (c.reserve t).capacity) := fun h =>
  absurd (h (SV.mkEmpty Nat 512) (2 ^ 63) Reachable.empty) (by decide)

/-- **C5, amended.**  `reserve(target)` establishes
`capacity() >= target` for every target below `2^63` (targets at least
`2^63` make the signed loop counter non-positive and the call a no-op);
unconditionally, the capacity never decreases, and the size and every
element read through `operator[]` are unchanged. -/
theorem C5_reserve_postconditions (hN : 0 < N) (c : SV α N) (t : Nat) :
    (t < HALF → t ≤ (c.reserve t).capacity) ∧
    c.capacity ≤ (c.reserve t).capacity ∧
    (c.reserve t).size = c.size ∧
    (∀ i, (c.reserve t).get? i = c.get? i) :=
  ⟨fun ht => capacity_reserve_ge hN c t ht,
   capacity_reserve_mono c t,
   size_reserve c t,
   get_reserve c t⟩

theorem C5_reserve_postconditions_witness :
    9 ≤ ((fromList 4 [1, 2] : SV Nat 4).reserve 9).capacity ∧
    ((fromList 4 [1, 2] : SV Nat 4).reserve 9).size =
      (fromList 4 [1, 2] : SV Nat 4).size := by
  have h := C5_reserve_postconditions (by decide) (fromList 4 [1, 2] : SV Nat 4) 9
  exact ⟨h.1 (by decide), h.2.2.1⟩

/-- **C6 (code bug).**  The const-qualified overloads of `front()` and
`back()` (src/stable_vector.h:135,138) call themselves unconditionally
(the unqualified call inside the const member resolves to the const
overload again; unlike `at() const` there is no `const_cast` to the
non-const overload), so they never return: at every recursion depth no
value has been produced.  The mutable overloads do return the first/last
element on a non-empty append-built container, e.g. the one holding the
single element 42. -/
theorem C6_front_back_const_diverge :
    (∀ (c : SV α N) (fuel : Nat),
        c.frontConstFuel fuel = none ∧ c.backConstFuel fuel = none) ∧
    (fromList 4 [42] : SV Nat 4).frontMut = some 42 ∧
    (fromList 4 [42] : SV Nat 4).backMut = some 42 ∧
    (fromList 4 [42] : SV Nat 4).get? 0 = some 42 ∧
    0 < (fromList 4 [42] : SV Nat 4).size :=
  ⟨fun c fuel => ⟨frontConstFuel_eq_none c fuel, backConstFuel_eq_none c fuel⟩,
    by decide, by decide, by decide, by decide⟩

/-- **C7.**  Iterator laws, for iterators of one container (`cid` models
the shared `m_container` pointer) at valid positions of a container of
feasible size (below `2^63`, so that the `size_type`/`difference_type`
conversions in the source are exact): `*(it + n) = container[i + n]`;
`it2 - it1 = index2 - index1`; `it1 < it2` iff `index1 < index2`; and
`const_iterator(it) == it`. -/
theorem C7_iterator_laws (c : SV α N) (cid i n idx1 idx2 : Nat)
    (hin : i + n ≤ c.size) (h1 : idx1 ≤ c.size) (h2 : idx2 ≤ c.size)
    (hs : c.size < HALF) :
    SVIterator.deref c (SVIterator.advance ⟨cid, i⟩ n) = c.get? (i + n) ∧
    SVIterator.sub ⟨cid, idx2⟩ ⟨cid, idx1⟩ =
      ((idx2 : Nat) : Int) - ((idx1 : Nat) : Int) ∧
    (SVIterator.lt ⟨cid, idx1⟩ ⟨cid, idx2⟩ = true ↔ idx1 < idx2) ∧
    iterEqConst ⟨cid, i⟩ (SVIterator.toConst ⟨cid, i⟩) = true := by
  refine ⟨?_, ?_, ?_, ?_⟩
  · simp only [SVIterator.deref, SVIterator.advance]
    rw [Nat.mod_eq_of_lt (lt_trans (lt_of_le_of_lt hin hs) HALF_lt_W)]
  · exact toSigned_usub_eq (lt_of_le_of_lt h2 hs) (lt_of_le_of_lt h1 hs)
  · simp [SVIterator.lt]
  · simp [iterEqConst, SVIterator.toConst]

theorem C7_iterator_laws_witness :
    SVIterator.deref (fromList 2 [5, 6, 7] : SV Nat 2)
        (SVIterator.advance ⟨0, 1⟩ 1) =
      (fromList 2 [5, 6, 7] : SV Nat 2).get? (1 + 1) ∧
    SVIterator.sub ⟨0, 0⟩ ⟨0, 3⟩ = ((0 : Nat) : Int) - ((3 : Nat) : Int) ∧
    (SVIterator.lt ⟨0, 3⟩ ⟨0, 0⟩ = true ↔ (3 : Nat) < 0) ∧
    iterEqConst ⟨0, 1⟩ (SVIterator.toConst ⟨0, 1⟩) = true :=
  C7_iterator_laws (fromList 2 [5, 6, 7] : SV Nat 2) 0 1 1 3 0
    (by decide) (by decide) (by decide) (by decide)

/-- **C8.**  Move construction transfers the chunk directory intact (the
new container is the old value, hence `operator==`-equal to it), leaves
the source with no chunks (`size() == 0`, `empty()`), and the source
remains usable: one more `push_back` gives `size() == 1` with the pushed
value at index 0. -/
theorem C8_move_construction (c : SV α N) (x : α) :
    (moveCtor c).1 = c ∧
    (moveCtor c).1.eqv c ∧
    (moveCtor c).2.chunks = [] ∧
    (moveCtor c).2.size = 0 ∧
    (moveCtor c).2.emptyQ = true ∧
    ((moveCtor c).2.push x).size = 1 ∧
    ((moveCtor c).2.push x).get? 0 = some x := by
  refine ⟨rfl, ⟨rfl, fun _ _ => rfl⟩, rfl, rfl, rfl, rfl, ?_⟩
  have hp : (moveCtor c).2.push x = (⟨[[x]]⟩ : SV α N) := push_empty x
  rw [hp, SV.get?]
  simp

/-- **C9.**  Round-trip construction: building a container from the range
`begin()..end()` of a well-formed container `c` (its directory satisfies
the chunk-layout invariant, as every container built without `reserve`
does) produces a container that `operator==`-compares equal to `c`. -/
theorem C9_round_trip (hN : 0 < N) (c : SV α N) (h : c.dirInv = true) :
    (fromList N (SV.elems c)).eqv c := by
  rw [elems_eq_flatten hN c h]
  have hsz : c.size = c.chunks.flatten.length := by
    rw [List.length_flatten, ← size_mk]
  constructor
  · rw [size_fromList hN]
    exact hsz.symm
  · intro i hi
    rw [size_fromList hN] at hi
    exact (get_fromList hN _ i hi).trans
      (get_eq_flatten_of_dirInv hN c.chunks h i (by rw [hsz]; exact hi)).symm

theorem C9_round_trip_witness :
    (fromList 2 (SV.elems (fromList 2 [1, 2, 3])) : SV Nat 2).eqv
      (fromList 2 [1, 2, 3]) :=
  C9_round_trip (by decide) _ (by decide)

/-- **C10, counterexample.**  It is not the case that `reserve(c)` on a
default-constructed container leaves `empty() == false` for every
`c > 0`: for `c = 2^63` the signed loop counter starts non-positive, no
chunk is appended, and `empty()` stays `true`. -/
theorem C10_counterexample :
    ¬ (∀ t : Nat, 0 < t →
        ((SV.mkEmpty Nat 512).reserve t).emptyQ = false) := fun h =>
  absurd (h (2 ^ 63) (by positivity)) (by decide)

/-- **C10, amended.**  `empty()` reports emptiness of the chunk
directory, not `size() == 0`: for every target `0 < c < 2^63`,
`reserve(c)` on a default-constructed container leaves `size() == 0`
while `empty()` returns `false`. -/
theorem C10_empty_reports_directory (hN : 0 < N) (t : Nat) (h0 : 0 < t)
    (ht : t < HALF) :
    (∀ c : SV α N, c.emptyQ = c.chunks.isEmpty) ∧
    ((SV.mkEmpty α N).reserve t).size = 0 ∧
    ((SV.mkEmpty α N).reserve t).emptyQ = false := by
  refine ⟨fun c => rfl, ?_, ?_⟩
  · rw [size_reserve]
    rfl
  · have hk : 1 ≤ reserveChunks N t ((SV.mkEmpty α N).capacity) := by
      have hcap : (SV.mkEmpty α N).capacity = 0 := Nat.zero_mul N
      rw [hcap, reserveChunks_of_lt h0 ht, Nat.one_le_div_iff hN]
      omega
    rw [SV.emptyQ, List.isEmpty_eq_false]
    intro h
    have h2 : (SV.mkEmpty α N).chunks ++
        List.replicate (reserveChunks N t ((SV.mkEmpty α N).capacity))
          ([] : List α) = [] := h
    rcases List.append_eq_nil.mp h2 with ⟨-, h3⟩
    rw [List.replicate_eq_nil_iff] at h3
    omega

theorem C10_empty_reports_directory_witness :
    (∀ c : SV Nat 4, c.emptyQ = c.chunks.isEmpty) ∧
    ((SV.mkEmpty Nat 4).reserve 5).size = 0 ∧
    ((SV.mkEmpty Nat 4).reserve 5).emptyQ = false :=
  C10_empty_reports_directory (by decide) 5 (by decide) (by decide)

end StableVectorModel
